import Mathlib

/-!
Verification of the PII detection / redaction core of
`src/routes/redaction_simple.py`.

Modelling conventions:
* Python `str` values are embedded as `List Char` (a Python string is a
  sequence of code points).
* File I/O in `redact_txt` / `redact_docx` / `process_*` belongs to the
  external collaborators (storage, docx parsing); the embedded functions are
  the content transformations these methods perform between the read and the
  write, applied to the already-extracted text (for `.txt`) or paragraph
  sequence (for `.docx`).
* The redaction request `redaction_items` is a list of dicts of which the
  code reads only `item['text']`; it is embedded as the list of those
  strings.
* Python's `\w`, `\d`, `\s` are Unicode-aware; on the ASCII texts considered
  here they coincide with the ASCII classes used below.
-/

namespace Redactor

/-- The fixed replacement sentinel `'[REDACTED]'` from the source. -/
def sentinel : List Char := ("[REDACTED]").data

/-- Python substring membership `pat in s` (used by `redact_docx` as
`item['text'] in para.text`): `pat` occurs as a contiguous run starting at
some offset `i ≤ len(s)`.  The empty string is a substring of every string. -/
def containsSub (s pat : List Char) : Bool :=
  (List.range (s.length + 1)).any (fun i => pat.isPrefixOf (s.drop i))

/-- Python `s.find(pat)`: offset of the leftmost occurrence of `pat` in `s`,
if any. -/
def findSub (s pat : List Char) : Option Nat :=
  (List.range (s.length + 1)).find? (fun i => pat.isPrefixOf (s.drop i))

/-- The scanning loop of CPython `str.replace` for a non-empty pattern:
walk the string left to right and replace each leftmost, non-overlapping
occurrence of `pat` by `rep`.  `fuel` bounds the recursion; it is called with
`fuel = s.length`, which is always sufficient (each step consumes one
character of `s` or a whole occurrence of `pat`); on exhausted fuel the rest
is returned unchanged. -/
def replaceScan (pat rep : List Char) : Nat → List Char → List Char
  | 0, s => s
  | _ + 1, [] => []
  | fuel + 1, c :: t =>
    if pat.isPrefixOf (c :: t) then
      rep ++ replaceScan pat rep fuel (t.drop (pat.length - 1))
    else
      c :: replaceScan pat rep fuel t

/-- Python `s.replace(pat, rep)` (replace all occurrences).  For the empty
pattern CPython inserts `rep` at every character gap of `s`, including before
the first and after the last character (`'ab'.replace('', 'X') = 'XaXbX'`). -/
def pyReplace (s pat rep : List Char) : List Char :=
  if pat.isEmpty then rep ++ s.flatMap (fun c => c :: rep)
  else replaceScan pat rep s.length s

/-- `DocumentProcessor.redact_txt` (content transformation): for each
redaction item in the order given, `content = content.replace(item['text'],
'[REDACTED]')`. -/
def redact_txt (content : List Char) (items : List (List Char)) : List Char :=
  items.foldl (fun acc lit => pyReplace acc lit sentinel) content

/-- `DocumentProcessor.redact_docx` (content transformation): for each
paragraph, for each redaction item, if `item['text'] in para.text` then
`para.text = para.text.replace(item['text'], '[REDACTED]')`. -/
def redact_docx (paragraphs : List (List Char)) (items : List (List Char)) :
    List (List Char) :=
  paragraphs.map (fun para =>
    items.foldl
      (fun acc lit => if containsSub acc lit then pyReplace acc lit sentinel else acc)
      para)

/-- Leftmost occurrence data extracted from `findSub`. -/
theorem findSub_some {s pat : List Char} {i : Nat} (h : findSub s pat = some i) :
    pat.isPrefixOf (s.drop i) = true ∧ i ≤ s.length := by
  unfold findSub at h
  have h1 := List.find?_some h
  have h2 := List.mem_of_find?_eq_some h
  have h3 : i < s.length + 1 := List.mem_range.mp h2
  exact ⟨h1, Nat.lt_succ_iff.mp h3⟩

/-- Replace-all as the spec words it: repeatedly locate the leftmost
occurrence of the literal, substitute `rep` for it, and continue in the
remainder after the occurrence (non-overlapping).  Intended for non-empty
patterns; an empty pattern is treated as leaving `s` unchanged here. -/
def replaceSpec (s pat rep : List Char) : List Char :=
  if hp : pat.isEmpty then s
  else
    match h : findSub s pat with
    | none => s
    | some i => s.take i ++ rep ++ replaceSpec (s.drop (i + pat.length)) pat rep
termination_by s.length
decreasing_by
  have hpre := (findSub_some h).1
  have hlen : pat.length ≤ (s.drop i).length := (List.isPrefixOf_iff_prefix.mp hpre).length_le
  simp only [List.length_drop] at hlen
  have hps : 1 ≤ pat.length := by
    cases pat with
    | nil => simp [List.isEmpty] at hp
    | cons a t => simp
  have hi := (findSub_some h).2
  simp only [List.length_drop]
  omega

/-- The empty string is a substring of every string (Python `'' in s`). -/
theorem containsSub_nil (s : List Char) : containsSub s [] = true := by
  unfold containsSub
  rw [List.any_eq_true]
  exact ⟨0, by simp [List.isPrefixOf]⟩

/-- `containsSub` and `findSub` describe the same search. -/
theorem containsSub_eq_isSome (s pat : List Char) :
    containsSub s pat = (findSub s pat).isSome := by
  unfold containsSub findSub
  rw [Bool.eq_iff_iff, List.any_eq_true, List.find?_isSome]

/-- A pattern that is a prefix of `s` is found at offset `0`. -/
theorem findSub_of_isPrefixOf {s pat : List Char} (h : pat.isPrefixOf s = true) :
    findSub s pat = some 0 := by
  unfold findSub
  rw [List.range_succ_eq_map]
  rw [List.find?_cons_of_pos]
  simpa using h

/-- Stepping the search past a position where the pattern does not occur. -/
theorem findSub_cons {c : Char} {t pat : List Char}
    (h : ¬ pat.isPrefixOf (c :: t) = true) :
    findSub (c :: t) pat = (findSub t pat).map (· + 1) := by
  unfold findSub
  rw [show (c :: t).length + 1 = (t.length + 1) + 1 by simp]
  rw [List.range_succ_eq_map]
  rw [List.find?_cons_of_neg _ (by simpa using h)]
  rw [List.find?_map]
  congr 1

theorem replaceSpec_empty {s pat rep : List Char} (hp : pat.isEmpty = true) :
    replaceSpec s pat rep = s := by
  rw [replaceSpec]
  simp [hp]

theorem replaceSpec_none {s pat rep : List Char} (hp : ¬ pat.isEmpty = true)
    (h : findSub s pat = none) : replaceSpec s pat rep = s := by
  rw [replaceSpec]
  rw [dif_neg hp]
  split <;> simp_all

theorem replaceSpec_some {s pat rep : List Char} {i : Nat} (hp : ¬ pat.isEmpty = true)
    (h : findSub s pat = some i) :
    replaceSpec s pat rep = s.take i ++ rep ++ replaceSpec (s.drop (i + pat.length)) pat rep := by
  conv_lhs => rw [replaceSpec]
  rw [dif_neg hp]
  split <;> simp_all

/-- No occurrence on the empty string, for a non-empty pattern. -/
theorem findSub_nil {pat : List Char} (hp : pat ≠ []) : findSub [] pat = none := by
  unfold findSub
  cases pat with
  | nil => exact absurd rfl hp
  | cons a t => simp [List.isPrefixOf]

/-- The scanning implementation of CPython `str.replace` computes exactly the
leftmost-occurrence replace-all of the specification, for non-empty patterns
and sufficient fuel. -/
theorem replaceScan_eq_replaceSpec (pat rep : List Char) (hp : pat ≠ []) :
    ∀ (fuel : Nat) (s : List Char), s.length ≤ fuel →
      replaceScan pat rep fuel s = replaceSpec s pat rep := by
  have hpe : ¬ pat.isEmpty = true := by simpa [List.isEmpty_iff] using hp
  intro fuel
  induction fuel with
  | zero =>
    intro s hs
    have : s = [] := List.length_eq_zero.mp (Nat.le_zero.mp hs)
    subst this
    rw [replaceScan, replaceSpec_none hpe (findSub_nil hp)]
  | succ fuel ih =>
    intro s hs
    cases s with
    | nil => rw [replaceScan, replaceSpec_none hpe (findSub_nil hp)]
    | cons c t =>
      by_cases hpre : pat.isPrefixOf (c :: t) = true
      · rw [replaceScan, if_pos hpre]
        rw [replaceSpec_some hpe (findSub_of_isPrefixOf hpre)]
        obtain ⟨k, hk⟩ : ∃ k, pat.length = k + 1 := by
          cases hpl : pat.length with
          | zero => exact absurd (List.length_eq_zero.mp hpl) hp
          | succ k => exact ⟨k, rfl⟩
        have hdrop : (c :: t).drop (0 + pat.length) = t.drop (pat.length - 1) := by
          rw [hk]; simp
        rw [hdrop, List.take_zero, List.nil_append]
        congr 1
        have hlen : (t.drop (pat.length - 1)).length ≤ fuel := by
          simp only [List.length_drop]
          simp only [List.length_cons] at hs
          omega
        exact ih _ hlen
      · rw [replaceScan, if_neg hpre]
        have ht : t.length ≤ fuel := by
          simp only [List.length_cons] at hs
          omega
        rw [ih t ht]
        cases hft : findSub t pat with
        | none =>
          rw [replaceSpec_none hpe (show findSub (c :: t) pat = none by
            rw [findSub_cons hpre, hft]; rfl)]
          rw [replaceSpec_none hpe hft]
        | some i =>
          rw [replaceSpec_some hpe (show findSub (c :: t) pat = some (i + 1) by
            rw [findSub_cons hpre, hft]; rfl)]
          rw [replaceSpec_some hpe hft]
          simp only [List.take_succ_cons, List.cons_append]
          rw [Nat.add_right_comm, List.drop_succ_cons]

/-- `pyReplace` agrees with the leftmost-occurrence specification for every
non-empty literal. -/
theorem pyReplace_eq_replaceSpec (s pat rep : List Char) (hp : pat ≠ []) :
    pyReplace s pat rep = replaceSpec s pat rep := by
  unfold pyReplace
  rw [if_neg (by simpa [List.isEmpty_iff] using hp)]
  exact replaceScan_eq_replaceSpec pat rep hp s.length s le_rfl

/-- Replacing a literal that does not occur in the string is a no-op. -/
theorem pyReplace_of_not_contains {s pat : List Char} (rep : List Char)
    (h : containsSub s pat = false) : pyReplace s pat rep = s := by
  have hp : pat ≠ [] := by
    intro he
    subst he
    rw [containsSub_nil] at h
    cases h
  have hnone : findSub s pat = none := by
    cases hf : findSub s pat with
    | none => rfl
    | some i =>
      rw [containsSub_eq_isSome, hf] at h
      cases h
  rw [pyReplace_eq_replaceSpec s pat rep hp]
  exact replaceSpec_none (by simpa [List.isEmpty_iff] using hp) hnone

/-- `redact_txt` with no occurring literal leaves the content unchanged. -/
theorem redact_txt_of_no_occurrence {content : List Char} {items : List (List Char)}
    (h : ∀ lit ∈ items, containsSub content lit = false) :
    redact_txt content items = content := by
  induction items with
  | nil => rfl
  | cons lit rest ih =>
    unfold redact_txt
    rw [List.foldl_cons, pyReplace_of_not_contains sentinel (h lit (by simp))]
    exact ih (fun l hl => h l (by simp [hl]))

/-- The per-paragraph loop of `redact_docx` computes exactly `redact_txt` on
that paragraph's text: the `item['text'] in para.text` guard is behaviourally
redundant because replacing an absent literal is a no-op. -/
theorem docx_block_eq_redact_txt (para : List Char) (items : List (List Char)) :
    items.foldl
      (fun acc lit => if containsSub acc lit then pyReplace acc lit sentinel else acc)
      para = redact_txt para items := by
  induction items generalizing para with
  | nil => rfl
  | cons lit rest ih =>
    rw [List.foldl_cons]
    unfold redact_txt
    rw [List.foldl_cons]
    by_cases hc : containsSub para lit = true
    · rw [if_pos hc]
      exact ih (pyReplace para lit sentinel)
    · rw [if_neg hc]
      rw [pyReplace_of_not_contains sentinel (Bool.not_eq_true _ ▸ hc)]
      exact ih para

/-- `redact_docx` is `redact_txt` mapped over the paragraphs. -/
theorem redact_docx_eq_map (paragraphs : List (List Char)) (items : List (List Char)) :
    redact_docx paragraphs items = paragraphs.map (fun para => redact_txt para items) := by
  unfold redact_docx
  exact List.map_congr_left (fun para _ => docx_block_eq_redact_txt para items)

/-- Length of the gap-interleaving produced by an empty-literal replacement. -/
theorem flatMap_cons_sentinel_length (s : List Char) :
    (s.flatMap (fun c => c :: sentinel)).length = 11 * s.length := by
  induction s with
  | nil => rfl
  | cons c t ih =>
    rw [List.flatMap_cons, List.length_append, ih]
    simp [sentinel]
    omega

/-- C2: the plain-text redactor processes the literals in the order given,
each step being standard Python replace-all (leftmost-first, non-overlapping,
here characterised by `replaceSpec`) of that literal by `[REDACTED]` in the
current working text; in particular `redact(text="aaa", literals=["aa"])`
yields `"[REDACTED]a"`. -/
theorem c2_sequential_replace_all :
    (∀ (s l : List Char) (ls : List (List Char)),
      redact_txt s (l :: ls) = redact_txt (pyReplace s l sentinel) ls) ∧
    (∀ (s pat rep : List Char), pat ≠ [] → pyReplace s pat rep = replaceSpec s pat rep) ∧
    redact_txt (("aaa").data) [("aa").data] = ("[REDACTED]a").data := by
  refine ⟨fun s l ls => rfl, fun s pat rep hp => pyReplace_eq_replaceSpec s pat rep hp, ?_⟩
  decide

/-- Witness for C2: the replace-all hypothesis (`"aa" ≠ ""`) is satisfiable
at a concrete input. -/
theorem c2_witness :
    ("aa").data ≠ ([] : List Char) ∧
    pyReplace (("aaa").data) (("aa").data) sentinel
      = replaceSpec (("aaa").data) (("aa").data) sentinel :=
  ⟨by decide, c2_sequential_replace_all.2.1 (("aaa").data) (("aa").data) sentinel (by decide)⟩

/-- C5: the structured redactor preserves block count and block order, every
block in which no listed literal occurs is returned unchanged at its
position, and redacting `"a@b.com"` in `["Email: a@b.com", "No PII here"]`
yields `["Email: [REDACTED]", "No PII here"]`. -/
theorem c5_blocks_frame :
    (∀ (paragraphs items : List (List Char)),
      (redact_docx paragraphs items).length = paragraphs.length) ∧
    (∀ (paragraphs items : List (List Char)) (i : Nat) (b : List Char),
      paragraphs[i]? = some b → (∀ lit ∈ items, containsSub b lit = false) →
        (redact_docx paragraphs items)[i]? = some b) ∧
    redact_docx [("Email: a@b.com").data, ("No PII here").data] [("a@b.com").data]
      = [("Email: [REDACTED]").data, ("No PII here").data] := by
  refine ⟨?_, ?_, by decide⟩
  · intro paragraphs items
    unfold redact_docx
    exact List.length_map _ _
  · intro paragraphs items i b hb hno
    rw [redact_docx_eq_map, List.getElem?_map, hb, Option.map_some']
    rw [redact_txt_of_no_occurrence hno]

/-- Witness for C5: the frame hypotheses are satisfiable at a concrete
block sequence. -/
theorem c5_witness :
    ([("No PII here").data][0]? = some (("No PII here").data)) ∧
    (∀ lit ∈ [("a@b.com").data], containsSub (("No PII here").data) lit = false) ∧
    (redact_docx [("No PII here").data] [("a@b.com").data])[0]?
      = some (("No PII here").data) :=
  ⟨by decide, by decide,
    c5_blocks_frame.2.1 [("No PII here").data] [("a@b.com").data] 0 (("No PII here").data)
      (by decide) (by decide)⟩

/-- C7: redaction with the empty literal list returns the content unchanged
(both variants); a listed literal that does not occur in the content is a
no-op for that literal; and content in which no listed literal occurs is
returned unchanged, in both the plain-text and structured variants. -/
theorem c7_absent_literal_no_op :
    (∀ s : List Char, redact_txt s [] = s) ∧
    (∀ paragraphs : List (List Char), redact_docx paragraphs [] = paragraphs) ∧
    (∀ s lit : List Char, containsSub s lit = false → pyReplace s lit sentinel = s) ∧
    (∀ (s : List Char) (items : List (List Char)),
      (∀ lit ∈ items, containsSub s lit = false) → redact_txt s items = s) ∧
    (∀ (paragraphs items : List (List Char)),
      (∀ b ∈ paragraphs, ∀ lit ∈ items, containsSub b lit = false) →
        redact_docx paragraphs items = paragraphs) := by
  refine ⟨fun s => rfl, ?_, ?_, ?_, ?_⟩
  · intro paragraphs
    rw [redact_docx_eq_map]
    simp [redact_txt]
  · exact fun s lit h => pyReplace_of_not_contains sentinel h
  · exact fun s items h => redact_txt_of_no_occurrence h
  · intro paragraphs items h
    rw [redact_docx_eq_map]
    calc paragraphs.map (fun para => redact_txt para items)
        = paragraphs.map id := List.map_congr_left
          (fun b hb => redact_txt_of_no_occurrence (h b hb))
      _ = paragraphs := List.map_id _

/-- Witness for C7: the no-occurrence hypotheses are satisfiable at a
concrete input. -/
theorem c7_witness :
    (∀ lit ∈ [("aa").data], containsSub (("xyz").data) lit = false) ∧
    redact_txt (("xyz").data) [("aa").data] = ("xyz").data :=
  ⟨by decide, c7_absent_literal_no_op.2.2.2.1 (("xyz").data) [("aa").data] (by decide)⟩

/-- C9: an empty-string redaction literal is not a no-op: both variants
insert `[REDACTED]` at every character gap of the current text, including
before the first and after the last character. -/
theorem c9_empty_literal :
    (∀ s : List Char, redact_txt s [[]] ≠ s) ∧
    redact_txt [] [[]] = sentinel ∧
    (∀ (c : Char) (s : List Char),
      redact_txt (c :: s) [[]] = sentinel ++ c :: redact_txt s [[]]) ∧
    (∀ paragraphs : List (List Char),
      redact_docx paragraphs [[]] = paragraphs.map (fun b => redact_txt b [[]])) ∧
    redact_txt (("ab").data) [[]] = ("[REDACTED]a[REDACTED]b[REDACTED]").data := by
  have hred : ∀ s : List Char, redact_txt s [[]] = sentinel ++ s.flatMap (fun c => c :: sentinel) := by
    intro s
    rfl
  refine ⟨?_, by decide, ?_, fun paragraphs => redact_docx_eq_map paragraphs [[]], by decide⟩
  · intro s h
    have hl := congrArg List.length h
    rw [hred, List.length_append, flatMap_cons_sentinel_length] at hl
    simp [sentinel] at hl
    omega
  · intro c s
    rw [hred, hred]
    simp [List.flatMap_cons]

/-- C10: the structured redactor's output for each block equals the result of
applying the plain-text redactor to that block's text alone; the
substring-membership guard is behaviourally redundant because replace-all of
an absent literal is a no-op. -/
theorem c10_structured_refines_plain :
    (∀ (paragraphs items : List (List Char)),
      redact_docx paragraphs items = paragraphs.map (fun para => redact_txt para items)) ∧
    (∀ s lit : List Char, containsSub s lit = false → pyReplace s lit sentinel = s) :=
  ⟨redact_docx_eq_map, fun s lit h => pyReplace_of_not_contains sentinel h⟩

/-- Witness for C10: the no-occurrence hypothesis of the redundancy part is
satisfiable at a concrete input. -/
theorem c10_witness :
    containsSub (("hello").data) (("zz").data) = false ∧
    pyReplace (("hello").data) (("zz").data) sentinel = ("hello").data :=
  ⟨by decide, c10_structured_refines_plain.2 (("hello").data) (("zz").data) (by decide)⟩

/-- Word character for Python `\b` (the ASCII fragment of `\w`, which
coincides with `\w` on ASCII text). -/
def isWordChar (c : Char) : Bool := c.isAlphanum || c == '_'

/-- Character classes of the source's patterns (ASCII fragments of Python's
`\d` and `\s`, which coincide on ASCII text). -/
def isDigitChar (c : Char) : Bool := c.isDigit

def isSpaceChar (c : Char) : Bool :=
  c == ' ' || c == '\t' || c == '\n' || c == '\r' || c == '\x0b' || c == '\x0c'

/-- A regular-expression fragment, sufficient to embed the six compiled
patterns of `PIIDetector.__init__`. -/
inductive RE where
  | eps : RE
  | cls (f : Char → Bool) : RE
  | clsRep (f : Char → Bool) (lo : Nat) (hi : Option Nat) : RE
  | seq (a b : RE) : RE
  | alt (a b : RE) : RE
  | wordB : RE

/-- Length of the maximal run of `f`-characters at the head of a list. -/
def runLen (f : Char → Bool) : List Char → Nat
  | [] => 0
  | c :: t => if f c then runLen f t + 1 else 0

/-- The character of `s` at offset `p`, if in range. -/
def charAt (s : List Char) (p : Nat) : Option Char := (s.drop p).head?

def isWordAt (s : List Char) (p : Nat) : Bool :=
  match charAt s p with
  | some c => isWordChar c
  | none => false

/-- Python `\b`: a position where word-character-ness changes, the ends of
the string counting as non-word. -/
def wordBoundary (s : List Char) (p : Nat) : Bool :=
  (if p == 0 then false else isWordAt s (p - 1)) != isWordAt s p

/-- The largest number of characters a greedy class repetition `f{lo,hi}`
can consume at position `p`: the run length, capped by `hi` when bounded. -/
def repTop (f : Char → Bool) (s : List Char) (p : Nat) : Option Nat → Nat
  | none => runLen f (s.drop p)
  | some h => min (runLen f (s.drop p)) h

/-- All end positions at which `re` can match in `s` starting at `p`, in the
order Python's backtracking engine explores them: greedy quantifiers longest
first, alternatives left to right.  The head of this list is the end of the
match the engine reports at `p`. -/
def ends (s : List Char) : RE → Nat → List Nat
  | RE.eps, p => [p]
  | RE.cls f, p =>
    match charAt s p with
    | some c => if f c then [p + 1] else []
    | none => []
  | RE.clsRep f lo hi, p =>
    if lo ≤ repTop f s p hi then
      (List.range (repTop f s p hi - lo + 1)).map (fun k => p + repTop f s p hi - k)
    else []
  | RE.seq a b, p => (ends s a p).flatMap (fun q => ends s b q)
  | RE.alt a b, p => ends s a p ++ ends s b p
  | RE.wordB, p => if wordBoundary s p then [p] else []

/-- The end of the match that Python's engine reports for an attempt at
position `p` (its first successful backtracking path), if any. -/
def firstMatch (re : RE) (s : List Char) (p : Nat) : Option Nat :=
  (ends s re p).head?

/-- The scan of `re.finditer`: try successive start positions left to right;
after a match `[p, e)` continue at `e` (our patterns never match the empty
string, and Python advances by one character in that case anyway, which
`max e (p + 1)` reproduces).  `fuel` bounds the recursion and is called with
`s.length + 1`, which covers every scan position `0..s.length`. -/
def finditerFuel (re : RE) (s : List Char) : Nat → Nat → List (Nat × Nat)
  | 0, _ => []
  | fuel + 1, p =>
    if p ≤ s.length then
      match firstMatch re s p with
      | some e => (p, e) :: finditerFuel re s fuel (max e (p + 1))
      | none => finditerFuel re s fuel (p + 1)
    else []

/-- `re.finditer(text)` as the list of `(start, end)` spans of the
non-overlapping matches, leftmost first. -/
def finditer (re : RE) (s : List Char) : List (Nat × Nat) :=
  finditerFuel re s (s.length + 1) 0

/-- `[A-Za-z0-9._%+-]` (email local part). -/
def emailLocalChar (c : Char) : Bool :=
  c.isUpper || c.isLower || c.isDigit || c == '.' || c == '_' || c == '%' || c == '+' || c == '-'

/-- `[A-Za-z0-9.-]` (email domain). -/
def emailDomainChar (c : Char) : Bool :=
  c.isUpper || c.isLower || c.isDigit || c == '.' || c == '-'

/-- The TLD class of the source pattern, literally `[A-Z|a-z]`: an uppercase
letter, the bar character `|`, or a lowercase letter. -/
def emailTldChar (c : Char) : Bool := c.isUpper || c == '|' || c.isLower

/-- `\b[A-Za-z0-9._%+-]+@[A-Za-z0-9.-]+\.[A-Z|a-z]{2,}\b` (email_pattern). -/
def emailRE : RE :=
  RE.seq RE.wordB (RE.seq (RE.clsRep emailLocalChar 1 none)
    (RE.seq (RE.cls (fun c => c == '@')) (RE.seq (RE.clsRep emailDomainChar 1 none)
      (RE.seq (RE.cls (fun c => c == '.')) (RE.seq (RE.clsRep emailTldChar 2 none) RE.wordB)))))

/-- `-?` (optional dash). -/
def dashOpt : RE := RE.clsRep (fun c => c == '-') 0 (some 1)

/-- `\b\d{3}-?\d{2}-?\d{4}\b` (ssn_pattern). -/
def ssnRE : RE :=
  RE.seq RE.wordB (RE.seq (RE.clsRep isDigitChar 3 (some 3)) (RE.seq dashOpt
    (RE.seq (RE.clsRep isDigitChar 2 (some 2)) (RE.seq dashOpt
      (RE.seq (RE.clsRep isDigitChar 4 (some 4)) RE.wordB)))))

/-- `\d{4}[-\s]?`, one group of `credit_card_pattern`. -/
def ccGroup : RE :=
  RE.seq (RE.clsRep isDigitChar 4 (some 4))
    (RE.clsRep (fun c => c == '-' || isSpaceChar c) 0 (some 1))

/-- `\b(?:\d{4}[-\s]?){3}\d{4}\b` (credit_card_pattern), the bounded repeat
written out as three copies. -/
def ccRE : RE :=
  RE.seq RE.wordB (RE.seq ccGroup (RE.seq ccGroup (RE.seq ccGroup
    (RE.seq (RE.clsRep isDigitChar 4 (some 4)) RE.wordB))))

/-- The separator class of date_pattern: a slash or a dash. -/
def slashDash : RE := RE.cls (fun c => c == '/' || c == '-')

/-- date_pattern: `\b\d{1,2} sep \d{1,2} sep \d{2,4}\b` where `sep` is the
slash-or-dash class. -/
def dateRE : RE :=
  RE.seq RE.wordB (RE.seq (RE.clsRep isDigitChar 1 (some 2)) (RE.seq slashDash
    (RE.seq (RE.clsRep isDigitChar 1 (some 2)) (RE.seq slashDash
      (RE.seq (RE.clsRep isDigitChar 2 (some 4)) RE.wordB)))))

/-- `[A-Z0-9]`. -/
def upperAlnumChar (c : Char) : Bool := c.isUpper || c.isDigit

/-- `(x){0,n}` as a chain of greedy options: try another copy of the body
first, fall back to stopping. -/
def optChain (body : RE) : Nat → RE
  | 0 => RE.eps
  | n + 1 => RE.alt (RE.seq body (optChain body n)) RE.eps

/-- `\b[A-Z]{2}\d{2}[A-Z0-9]{4}\d{7}([A-Z0-9]?){0,16}\b` (iban_pattern). -/
def ibanRE : RE :=
  RE.seq RE.wordB (RE.seq (RE.clsRep Char.isUpper 2 (some 2))
    (RE.seq (RE.clsRep isDigitChar 2 (some 2))
      (RE.seq (RE.clsRep upperAlnumChar 4 (some 4))
        (RE.seq (RE.clsRep isDigitChar 7 (some 7))
          (RE.seq (optChain (RE.clsRep upperAlnumChar 0 (some 1)) 16) RE.wordB)))))

/-- `[A-Za-z]`. -/
def letterChar (c : Char) : Bool := c.isUpper || c.isLower

/-- `[A-Za-z\s]`. -/
def letterSpaceChar (c : Char) : Bool := letterChar c || isSpaceChar c

/-- A literal word matched case-insensitively (`re.IGNORECASE`). -/
def ciLit (w : List Char) : RE :=
  w.foldr (fun c r => RE.seq (RE.cls (fun x => x.toLower == c)) r) RE.eps

/-- `(?:Street|St|Avenue|Ave|Road|Rd|Boulevard|Blvd|Lane|Ln|Drive|Dr)`,
alternatives in source order. -/
def streetAlt : RE :=
  RE.alt (ciLit (("street").data))
    (RE.alt (ciLit (("st").data))
      (RE.alt (ciLit (("avenue").data))
        (RE.alt (ciLit (("ave").data))
          (RE.alt (ciLit (("road").data))
            (RE.alt (ciLit (("rd").data))
              (RE.alt (ciLit (("boulevard").data))
                (RE.alt (ciLit (("blvd").data))
                  (RE.alt (ciLit (("lane").data))
                    (RE.alt (ciLit (("ln").data))
                      (RE.alt (ciLit (("drive").data)) (ciLit (("dr").data))))))))))))

/-- `\b\d+\s+[A-Za-z\s]+(?:Street|...|Dr)\b` with `re.IGNORECASE`
(address_pattern). -/
def addressRE : RE :=
  RE.seq RE.wordB (RE.seq (RE.clsRep isDigitChar 1 none)
    (RE.seq (RE.clsRep isSpaceChar 1 none)
      (RE.seq (RE.clsRep letterSpaceChar 1 none) (RE.seq streetAlt RE.wordB))))

/-- The `type` strings of `detect_pii`. -/
inductive PIICategory where
  | email | phone | ssn | credit_card | date | iban | address
deriving DecidableEq

/-- The `confidence` strings of `detect_pii`. -/
inductive Confidence where
  | high | medium | low
deriving DecidableEq

/-- One entry of the `pii_items` list built by `detect_pii`.  `stop` embeds
the dict key `'end'` (`end` is reserved in Lean). -/
structure PIIMatch where
  type : PIICategory
  text : List Char
  start : Nat
  stop : Nat
  confidence : Confidence
deriving DecidableEq

/-- Python slice `text[a:b]` for natural `a ≤ b` (clamped at the right end,
as in Python). -/
def pySlice (s : List Char) (a b : Nat) : List Char := (s.drop a).take (b - a)

/-- A span reported by the external `phonenumbers.PhoneNumberMatcher`
(`match.start`, `match.end`). -/
structure PhoneSpan where
  start : Nat
  stop : Nat
deriving DecidableEq

/-- Observable behaviour of one run of the external phone-matcher iterator,
as consumed by the `try: for match in ...: append / except: pass` loop of
`detect_pii`: the spans it yields in order, and whether it then raised an
exception (which the loop swallows after having appended the yielded
spans). -/
structure PhoneOutcome where
  yielded : List PhoneSpan
  threw : Bool
deriving DecidableEq

/-- The items appended for one regex category: one per `finditer` match,
with `text = match.group() = text[start:end]`. -/
def regexItems (re : RE) (ty : PIICategory) (conf : Confidence) (s : List Char) :
    List PIIMatch :=
  (finditer re s).map (fun m => ⟨ty, pySlice s m.1 m.2, m.1, m.2, conf⟩)

/-- The items appended by the phone branch: `text[match.start:match.end]`
for each yielded span. -/
def phoneItems (t : List Char) (spans : List PhoneSpan) : List PIIMatch :=
  spans.map (fun sp =>
    ⟨PIICategory.phone, pySlice t sp.start sp.stop, sp.start, sp.stop, Confidence.high⟩)

/-- The `pii_items` list of `detect_pii` before the final sort, categories in
source order: email, phone, ssn, credit_card, date, iban, address. -/
def pooled_pii (phone : PhoneOutcome) (t : List Char) : List PIIMatch :=
  regexItems emailRE PIICategory.email Confidence.high t
  ++ (phoneItems t phone.yielded
  ++ (regexItems ssnRE PIICategory.ssn Confidence.high t
  ++ (regexItems ccRE PIICategory.credit_card Confidence.medium t
  ++ (regexItems dateRE PIICategory.date Confidence.low t
  ++ (regexItems ibanRE PIICategory.iban Confidence.high t
  ++ regexItems addressRE PIICategory.address Confidence.medium t)))))

/-- The sort key order of `sorted(pii_items, key=lambda x: x['start'])`. -/
def startLE (a b : PIIMatch) : Prop := a.start ≤ b.start

instance : DecidableRel startLE := fun a b => Nat.decLe a.start b.start

instance : IsTotal PIIMatch startLE := ⟨fun a b => Nat.le_total a.start b.start⟩

instance : IsTrans PIIMatch startLE := ⟨fun _ _ _ => Nat.le_trans⟩

/-- `PIIDetector.detect_pii`, parameterised by the behaviour of the external
phone matcher.  Python's `sorted` is a stable sort by the key `'start'`;
insertion sort with `startLE` is a stable sort by the same key and therefore
the same function. -/
def detect_pii (phoneMatcher : List Char → PhoneOutcome) (t : List Char) :
    List PIIMatch :=
  List.insertionSort startLE (pooled_pii (phoneMatcher t) t)

/-- A phone matcher that finds nothing and does not fail. -/
def phoneNone : List Char → PhoneOutcome := fun _ => ⟨[], false⟩

/-- A character run is never longer than the list it starts. -/
theorem runLen_le_length (f : Char → Bool) : ∀ l : List Char, runLen f l ≤ l.length := by
  intro l
  induction l with
  | nil => simp [runLen]
  | cons c t ih =>
    rw [runLen]
    split
    · simpa using ih
    · simp

theorem repTop_le (f : Char → Bool) (s : List Char) (p : Nat) (hi : Option Nat) :
    repTop f s p hi ≤ runLen f (s.drop p) := by
  cases hi with
  | none => exact le_rfl
  | some h => exact min_le_left _ _

theorem charAt_some_lt {s : List Char} {p : Nat} {c : Char} (h : charAt s p = some c) :
    p < s.length := by
  by_contra hge
  rw [charAt, List.drop_eq_nil_of_le (Nat.le_of_not_lt hge)] at h
  cases h

/-- Every end position reported by the engine lies between the attempt
position and the end of the string. -/
theorem ends_bounds (s : List Char) (re : RE) :
    ∀ p q, q ∈ ends s re p → p ≤ q ∧ (p ≤ s.length → q ≤ s.length) := by
  induction re with
  | eps =>
    intro p q hq
    simp only [ends, List.mem_singleton] at hq
    subst hq
    exact ⟨le_rfl, fun h => h⟩
  | cls f =>
    intro p q hq
    cases hc : charAt s p with
    | none => simp [ends, hc] at hq
    | some c =>
      simp only [ends, hc] at hq
      by_cases hf : f c = true
      · rw [if_pos hf, List.mem_singleton] at hq
        subst hq
        have := charAt_some_lt hc
        exact ⟨Nat.le_succ p, fun _ => this⟩
      · rw [if_neg hf] at hq
        cases hq
  | clsRep f lo hi =>
    intro p q hq
    simp only [ends] at hq
    split at hq
    · rw [List.mem_map] at hq
      obtain ⟨k, hk, rfl⟩ := hq
      rw [List.mem_range] at hk
      have hrun : repTop f s p hi ≤ s.length - p := by
        have h1 := repTop_le f s p hi
        have h2 := runLen_le_length f (s.drop p)
        rw [List.length_drop] at h2
        omega
      constructor
      · omega
      · intro hp
        omega
    · cases hq
  | seq a b iha ihb =>
    intro p q hq
    simp only [ends, List.mem_flatMap] at hq
    obtain ⟨m, hm, hq⟩ := hq
    obtain ⟨h1, h2⟩ := iha p m hm
    obtain ⟨h3, h4⟩ := ihb m q hq
    exact ⟨le_trans h1 h3, fun hp => h4 (h2 hp)⟩
  | alt a b iha ihb =>
    intro p q hq
    simp only [ends, List.mem_append] at hq
    cases hq with
    | inl h => exact iha p q h
    | inr h => exact ihb p q h
  | wordB =>
    intro p q hq
    simp only [ends] at hq
    split at hq
    · rw [List.mem_singleton] at hq
      subst hq
      exact ⟨le_rfl, fun h => h⟩
    · cases hq

/-- Bounds for the reported match at one attempt position. -/
theorem firstMatch_bounds {re : RE} {s : List Char} {p e : Nat}
    (h : firstMatch re s p = some e) : p ≤ e ∧ (p ≤ s.length → e ≤ s.length) := by
  have h' : (ends s re p).head? = some e := h
  exact ends_bounds s re p e (List.mem_of_mem_head? (Option.mem_def.mpr h'))

/-- Every span of the scan lies on or after the scan position and inside the
string. -/
theorem finditerFuel_mem (re : RE) (s : List Char) :
    ∀ (fuel p : Nat) (m : Nat × Nat), m ∈ finditerFuel re s fuel p →
      p ≤ m.1 ∧ m.1 ≤ m.2 ∧ m.2 ≤ s.length := by
  intro fuel
  induction fuel with
  | zero => intro p m hm; cases hm
  | succ fuel ih =>
    intro p m hm
    rw [finditerFuel] at hm
    split at hm
    case isTrue hp =>
      cases hfm : firstMatch re s p with
      | some e =>
        rw [hfm] at hm
        rcases List.mem_cons.mp hm with rfl | hm'
        · obtain ⟨h1, h2⟩ := firstMatch_bounds hfm
          exact ⟨le_rfl, h1, h2 hp⟩
        · obtain ⟨h1, h2, h3⟩ := ih _ _ hm'
          refine ⟨?_, h2, h3⟩
          omega
      | none =>
        rw [hfm] at hm
        obtain ⟨h1, h2, h3⟩ := ih _ _ hm
        exact ⟨by omega, h2, h3⟩
    case isFalse => cases hm

/-- The spans of the scan are ordered and non-overlapping: each span ends no
later than the next begins. -/
theorem finditerFuel_chain (re : RE) (s : List Char) :
    ∀ fuel p, List.Pairwise (fun a b => a.2 ≤ b.1) (finditerFuel re s fuel p) := by
  intro fuel
  induction fuel with
  | zero => intro p; exact List.Pairwise.nil
  | succ fuel ih =>
    intro p
    rw [finditerFuel]
    split
    case isTrue hp =>
      cases hfm : firstMatch re s p with
      | some e =>
        refine List.Pairwise.cons ?_ (ih _)
        intro b hb
        have h1 := (finditerFuel_mem re s fuel _ b hb).1
        omega
      | none => exact ih _
    case isFalse => exact List.Pairwise.nil

theorem finditer_mem {re : RE} {s : List Char} {m : Nat × Nat}
    (hm : m ∈ finditer re s) : m.1 ≤ m.2 ∧ m.2 ≤ s.length :=
  ⟨(finditerFuel_mem re s _ 0 m hm).2.1, (finditerFuel_mem re s _ 0 m hm).2.2⟩

theorem finditer_chain (re : RE) (s : List Char) :
    List.Pairwise (fun a b => a.2 ≤ b.1) (finditer re s) :=
  finditerFuel_chain re s _ 0

theorem regexItems_type {re : RE} {ty : PIICategory} {conf : Confidence}
    {s : List Char} : ∀ m ∈ regexItems re ty conf s, m.type = ty := by
  intro m hm
  obtain ⟨sp, _, rfl⟩ := List.mem_map.mp hm
  rfl

theorem regexItems_bounds {re : RE} {ty : PIICategory} {conf : Confidence}
    {s : List Char} : ∀ m ∈ regexItems re ty conf s,
      m.start ≤ m.stop ∧ m.stop ≤ s.length ∧ m.text = pySlice s m.start m.stop := by
  intro m hm
  obtain ⟨sp, hsp, rfl⟩ := List.mem_map.mp hm
  obtain ⟨h1, h2⟩ := finditer_mem hsp
  exact ⟨h1, h2, rfl⟩

theorem regexItems_chain {re : RE} {ty : PIICategory} {conf : Confidence}
    {s : List Char} :
    List.Pairwise (fun a b => a.stop ≤ b.start) (regexItems re ty conf s) := by
  unfold regexItems
  rw [List.pairwise_map]
  exact finditer_chain re s

theorem phoneItems_type {t : List Char} {spans : List PhoneSpan} :
    ∀ m ∈ phoneItems t spans, m.type = PIICategory.phone := by
  intro m hm
  obtain ⟨sp, _, rfl⟩ := List.mem_map.mp hm
  rfl

/-- Inserting below every element of a list puts the new element in front. -/
theorem orderedInsert_of_forall_le {a : PIIMatch} {l : List PIIMatch}
    (h : ∀ z ∈ l, startLE a z) : List.orderedInsert startLE a l = a :: l := by
  cases l with
  | nil => rfl
  | cons y ys => rw [List.orderedInsert, if_pos (h y (List.mem_cons_self y ys))]

/-- Inserting an element the filter rejects does not change the filtered
list. -/
theorem filter_orderedInsert_neg (q : PIIMatch → Bool) (a : PIIMatch)
    (l : List PIIMatch) (ha : q a = false) :
    (List.orderedInsert startLE a l).filter q = l.filter q := by
  induction l with
  | nil => simp [ha]
  | cons y ys ih =>
    rw [List.orderedInsert]
    by_cases hr : startLE a y
    · rw [if_pos hr]
      simp [List.filter_cons, ha]
    · rw [if_neg hr]
      simp only [List.filter_cons, ih]

/-- Inserting an element the filter keeps commutes with filtering, on a
sorted list. -/
theorem filter_orderedInsert_pos (q : PIIMatch → Bool) (a : PIIMatch) :
    ∀ l : List PIIMatch, q a = true → List.Pairwise startLE l →
      (List.orderedInsert startLE a l).filter q
        = List.orderedInsert startLE a (l.filter q) := by
  intro l
  induction l with
  | nil => intro ha _; simp [ha]
  | cons y ys ih =>
    intro ha hl
    rw [List.orderedInsert]
    by_cases hr : startLE a y
    · rw [if_pos hr]
      have hall : ∀ z ∈ (y :: ys).filter q, startLE a z := by
        intro z hz
        have hz' := List.mem_of_mem_filter hz
        rcases List.mem_cons.mp hz' with rfl | hz''
        · exact hr
        · exact Nat.le_trans hr (List.rel_of_pairwise_cons hl hz'')
      rw [orderedInsert_of_forall_le hall, List.filter_cons_of_pos ha]
    · rw [if_neg hr]
      rw [List.filter_cons, List.filter_cons]
      by_cases hqy : q y = true
      · rw [if_pos hqy, if_pos hqy, List.orderedInsert, if_neg hr]
        rw [ih ha (List.Pairwise.of_cons hl)]
      · rw [if_neg hqy, if_neg hqy]
        exact ih ha (List.Pairwise.of_cons hl)

/-- A stable sort commutes with filtering: the non-rejected elements come out
in the same order whether or not the rejected ones were present. -/
theorem filter_insertionSort (q : PIIMatch → Bool) (l : List PIIMatch) :
    (List.insertionSort startLE l).filter q
      = List.insertionSort startLE (l.filter q) := by
  induction l with
  | nil => rfl
  | cons a l ih =>
    rw [List.insertionSort]
    by_cases ha : q a = true
    · rw [filter_orderedInsert_pos q a _ ha (List.sorted_insertionSort startLE l)]
      rw [ih, List.filter_cons_of_pos ha, List.insertionSort]
    · rw [filter_orderedInsert_neg q a _ (Bool.not_eq_true _ ▸ ha)]
      rw [ih, List.filter_cons_of_neg (by simpa using ha)]

/-- `detect_pii` is a permutation of its pooled category lists. -/
theorem detect_pii_perm (pm : List Char → PhoneOutcome) (t : List Char) :
    (detect_pii pm t).Perm (pooled_pii (pm t) t) :=
  List.perm_insertionSort startLE _

/-- Two half-open offset ranges overlap. -/
def RangesOverlap (a b : PIIMatch) : Prop :=
  max a.start b.start < min a.stop b.stop

theorem overlap_comm {a b : PIIMatch} (h : RangesOverlap a b) : RangesOverlap b a := by
  rw [RangesOverlap] at *
  omega

theorem not_overlap_of_le {a b : PIIMatch} (h : a.stop ≤ b.start) :
    ¬ RangesOverlap a b := by
  rw [RangesOverlap]
  omega

theorem phoneItems_bounds {t : List Char} {spans : List PhoneSpan}
    (h : ∀ sp ∈ spans, sp.start ≤ sp.stop ∧ sp.stop ≤ t.length) :
    ∀ m ∈ phoneItems t spans,
      m.start ≤ m.stop ∧ m.stop ≤ t.length ∧ m.text = pySlice t m.start m.stop := by
  intro m hm
  unfold phoneItems at hm
  obtain ⟨sp, hsp, rfl⟩ := List.mem_map.mp hm
  obtain ⟨h1, h2⟩ := h sp hsp
  exact ⟨h1, h2, rfl⟩

theorem phoneItems_chain {t : List Char} {spans : List PhoneSpan}
    (h : List.Pairwise (fun x y => x.stop ≤ y.start) spans) :
    List.Pairwise (fun a b => a.stop ≤ b.start) (phoneItems t spans) := by
  unfold phoneItems
  rw [List.pairwise_map]
  exact h

/-- Within the pooled list, two matches of the same category are ordered and
disjoint (assuming the external phone matcher also reports its matches in
non-overlapping order, as a scanning matcher does). -/
theorem pooled_same_type_disjoint (po : PhoneOutcome) (t : List Char)
    (hph : List.Pairwise (fun x y => x.stop ≤ y.start) po.yielded) :
    List.Pairwise (fun a b => a.type = b.type → a.stop ≤ b.start) (pooled_pii po t) := by
  have hchain : ∀ (re : RE) (ty : PIICategory) (conf : Confidence),
      List.Pairwise (fun a b : PIIMatch => a.type = b.type → a.stop ≤ b.start)
        (regexItems re ty conf t) := by
    intro re ty conf
    refine List.Pairwise.imp ?_ (@regexItems_chain re ty conf t)
    intro a b hab het
    exact hab
  have hphone : List.Pairwise (fun a b : PIIMatch => a.type = b.type → a.stop ≤ b.start)
      (phoneItems t po.yielded) := by
    refine List.Pairwise.imp ?_ (phoneItems_chain hph)
    intro a b hab het
    exact hab
  unfold pooled_pii
  refine List.pairwise_append.mpr ⟨hchain _ _ _, ?_, ?_⟩
  swap
  · intro a ha b hb het
    exfalso
    have ha' := regexItems_type a ha
    simp only [List.mem_append] at hb
    rcases hb with h | h | h | h | h | h
    · rw [ha', phoneItems_type b h] at het; simp at het
    · rw [ha', regexItems_type b h] at het; simp at het
    · rw [ha', regexItems_type b h] at het; simp at het
    · rw [ha', regexItems_type b h] at het; simp at het
    · rw [ha', regexItems_type b h] at het; simp at het
    · rw [ha', regexItems_type b h] at het; simp at het
  refine List.pairwise_append.mpr ⟨hphone, ?_, ?_⟩
  swap
  · intro a ha b hb het
    exfalso
    have ha' := phoneItems_type a ha
    simp only [List.mem_append] at hb
    rcases hb with h | h | h | h | h
    all_goals rw [ha', regexItems_type b h] at het; simp at het
  refine List.pairwise_append.mpr ⟨hchain _ _ _, ?_, ?_⟩
  swap
  · intro a ha b hb het
    exfalso
    have ha' := regexItems_type a ha
    simp only [List.mem_append] at hb
    rcases hb with h | h | h | h
    all_goals rw [ha', regexItems_type b h] at het; simp at het
  refine List.pairwise_append.mpr ⟨hchain _ _ _, ?_, ?_⟩
  swap
  · intro a ha b hb het
    exfalso
    have ha' := regexItems_type a ha
    simp only [List.mem_append] at hb
    rcases hb with h | h | h
    all_goals rw [ha', regexItems_type b h] at het; simp at het
  refine List.pairwise_append.mpr ⟨hchain _ _ _, ?_, ?_⟩
  swap
  · intro a ha b hb het
    exfalso
    have ha' := regexItems_type a ha
    simp only [List.mem_append] at hb
    rcases hb with h | h
    all_goals rw [ha', regexItems_type b h] at het; simp at het
  refine List.pairwise_append.mpr ⟨hchain _ _ _, hchain _ _ _, ?_⟩
  intro a ha b hb het
  exfalso
  rw [regexItems_type a ha, regexItems_type b hb] at het
  simp at het

/-- C1: `detect(T)` returns the pooled matches of all categories, sorted
ascending by `start`, with ties broken stably by original detection order:
the relative order of the matches with any given `start` value is exactly
their order in the pooled (detection-order) list, and category plays no role
in the sort. -/
theorem c1_detect_sorted_stable (pm : List Char → PhoneOutcome) (t : List Char) :
    List.Pairwise (fun a b => a.start ≤ b.start) (detect_pii pm t) ∧
    (detect_pii pm t).Perm (pooled_pii (pm t) t) ∧
    (∀ k : Nat, (detect_pii pm t).filter (fun m => m.start == k)
      = (pooled_pii (pm t) t).filter (fun m => m.start == k)) := by
  refine ⟨?_, List.perm_insertionSort startLE _, ?_⟩
  · exact List.sorted_insertionSort startLE _
  · intro k
    have hstep : (detect_pii pm t).filter (fun m => m.start == k)
        = List.insertionSort startLE ((pooled_pii (pm t) t).filter (fun m => m.start == k)) :=
      filter_insertionSort _ _
    rw [hstep]
    apply List.Sorted.insertionSort_eq
    apply List.pairwise_of_forall_mem_list
    intro a ha b hb
    have hak : a.start = k := by simpa using List.of_mem_filter ha
    have hbk : b.start = k := by simpa using List.of_mem_filter hb
    exact le_of_eq (hak.trans hbk.symm)

/-- C4: no two matches of the same category returned by `detect` overlap,
while overlapping matches of different categories are all retained (the
result is a permutation of the full pool; nothing is deduplicated or
merged).  The hypothesis states that the external phone matcher reports its
spans in non-overlapping left-to-right order, as its scanning contract
provides. -/
theorem c4_same_category_no_overlap (pm : List Char → PhoneOutcome) (t : List Char)
    (hph : List.Pairwise (fun x y => x.stop ≤ y.start) (pm t).yielded) :
    List.Pairwise (fun a b => a.type = b.type → ¬ RangesOverlap a b) (detect_pii pm t) ∧
    (detect_pii pm t).Perm (pooled_pii (pm t) t) := by
  have hsym : ∀ {x y : PIIMatch},
      (x.type = y.type → ¬ RangesOverlap x y) → (y.type = x.type → ¬ RangesOverlap y x) :=
    fun hxy het hov => hxy het.symm (overlap_comm hov)
  refine ⟨?_, detect_pii_perm pm t⟩
  have hpool := pooled_same_type_disjoint (pm t) t hph
  have hpoolR : List.Pairwise (fun a b => a.type = b.type → ¬ RangesOverlap a b)
      (pooled_pii (pm t) t) :=
    hpool.imp (fun hab het => not_overlap_of_le (hab het))
  exact (List.Perm.pairwise_iff hsym (detect_pii_perm pm t)).mpr hpoolR

/-- Witness for C4 at a concrete text (the trivial phone matcher satisfies
the non-overlap hypothesis). -/
theorem c4_witness :
    List.Pairwise (fun x y => x.stop ≤ y.start) ((phoneNone (("12/31/2023").data)).yielded) ∧
    (List.Pairwise (fun a b => a.type = b.type → ¬ RangesOverlap a b)
      (detect_pii phoneNone (("12/31/2023").data)) ∧
    (detect_pii phoneNone (("12/31/2023").data)).Perm
      (pooled_pii (phoneNone (("12/31/2023").data)) (("12/31/2023").data))) :=
  ⟨List.Pairwise.nil, c4_same_category_no_overlap phoneNone (("12/31/2023").data) List.Pairwise.nil⟩

/-- C8: every match returned by `detect` has `0 ≤ start ≤ end ≤ len(T)` and
carries `matched_text` equal to the substring `T[start:end)`, copied out as a
value (the embedding's lists are immutable snapshots by construction), for
the phone category (under the corresponding contract on the external
matcher's spans) as well as for every regex category. -/
theorem c8_offsets_and_snapshot (pm : List Char → PhoneOutcome) (t : List Char)
    (hph : ∀ sp ∈ (pm t).yielded, sp.start ≤ sp.stop ∧ sp.stop ≤ t.length) :
    ∀ m ∈ detect_pii pm t,
      m.start ≤ m.stop ∧ m.stop ≤ t.length ∧
      m.text = (t.drop m.start).take (m.stop - m.start) := by
  intro m hm
  have hm' : m ∈ pooled_pii (pm t) t := (detect_pii_perm pm t).mem_iff.mp hm
  unfold pooled_pii at hm'
  simp only [List.mem_append] at hm'
  rcases hm' with h | h | h | h | h | h | h
  · exact regexItems_bounds m h
  · exact phoneItems_bounds hph m h
  · exact regexItems_bounds m h
  · exact regexItems_bounds m h
  · exact regexItems_bounds m h
  · exact regexItems_bounds m h
  · exact regexItems_bounds m h

/-- Witness for C8 at a concrete text. -/
theorem c8_witness :
    (∀ sp ∈ (phoneNone (("SSN: 123-45-6789").data)).yielded,
      sp.start ≤ sp.stop ∧ sp.stop ≤ (("SSN: 123-45-6789").data).length) ∧
    (∀ m ∈ detect_pii phoneNone (("SSN: 123-45-6789").data),
      m.start ≤ m.stop ∧ m.stop ≤ (("SSN: 123-45-6789").data).length ∧
      m.text = ((("SSN: 123-45-6789").data).drop m.start).take (m.stop - m.start)) :=
  ⟨(fun _ hsp => nomatch hsp),
    c8_offsets_and_snapshot phoneNone (("SSN: 123-45-6789").data) (fun _ hsp => nomatch hsp)⟩

theorem regexItems_filter_phone (re : RE) (ty : PIICategory) (conf : Confidence)
    (t : List Char) (hne : ty ≠ PIICategory.phone) :
    (regexItems re ty conf t).filter (fun m => m.type == PIICategory.phone) = [] := by
  rw [List.filter_eq_nil_iff]
  intro a ha
  simp only [beq_iff_eq]
  rw [regexItems_type a ha]
  exact hne

theorem phoneItems_filter_phone (t : List Char) (spans : List PhoneSpan) :
    (phoneItems t spans).filter (fun m => m.type == PIICategory.phone)
      = phoneItems t spans := by
  rw [List.filter_eq_self]
  intro a ha
  simp only [beq_iff_eq]
  exact phoneItems_type a ha

/-- Of the pooled items, exactly the phone-branch items carry the phone tag. -/
theorem pooled_filter_phone (po : PhoneOutcome) (t : List Char) :
    (pooled_pii po t).filter (fun m => m.type == PIICategory.phone)
      = phoneItems t po.yielded := by
  unfold pooled_pii
  simp only [List.filter_append]
  rw [regexItems_filter_phone _ _ _ _ (by decide), phoneItems_filter_phone,
      regexItems_filter_phone _ _ _ _ (by decide), regexItems_filter_phone _ _ _ _ (by decide),
      regexItems_filter_phone _ _ _ _ (by decide), regexItems_filter_phone _ _ _ _ (by decide),
      regexItems_filter_phone _ _ _ _ (by decide)]
  simp

theorem regexItems_filter_nonphone (re : RE) (ty : PIICategory) (conf : Confidence)
    (t : List Char) (hne : ty ≠ PIICategory.phone) :
    (regexItems re ty conf t).filter (fun m => !(m.type == PIICategory.phone))
      = regexItems re ty conf t := by
  rw [List.filter_eq_self]
  intro a ha
  simp only [Bool.not_eq_true', beq_eq_false_iff_ne, ne_eq]
  rw [regexItems_type a ha]
  exact hne

theorem phoneItems_filter_nonphone (t : List Char) (spans : List PhoneSpan) :
    (phoneItems t spans).filter (fun m => !(m.type == PIICategory.phone)) = [] := by
  rw [List.filter_eq_nil_iff]
  intro a ha
  simp [phoneItems_type a ha]

/-- Dropping the phone tag from the pool gives the pool of a silent phone
matcher. -/
theorem pooled_filter_nonphone (po : PhoneOutcome) (t : List Char) :
    (pooled_pii po t).filter (fun m => !(m.type == PIICategory.phone))
      = pooled_pii ⟨[], false⟩ t := by
  unfold pooled_pii
  simp only [List.filter_append]
  rw [regexItems_filter_nonphone _ _ _ _ (by decide), phoneItems_filter_nonphone,
      regexItems_filter_nonphone _ _ _ _ (by decide), regexItems_filter_nonphone _ _ _ _ (by decide),
      regexItems_filter_nonphone _ _ _ _ (by decide), regexItems_filter_nonphone _ _ _ _ (by decide),
      regexItems_filter_nonphone _ _ _ _ (by decide)]
  rfl

/-- A phone matcher that yields one span and then raises, as a lazy Python
iterator can: the already-yielded span has been appended before the
exception reaches the `except: pass`. -/
def phoneThrowDemo : List Char → PhoneOutcome := fun _ => ⟨[⟨0, 3⟩], true⟩

/-- C6 counterexample: with a phone matcher that throws during the scan
after yielding one match, `detect` keeps that already-yielded phone match —
the phone category does not contribute zero matches as claimed. -/
theorem c6_counterexample :
    (phoneThrowDemo (("555").data)).threw = true ∧
    (detect_pii phoneThrowDemo (("555").data)).filter
      (fun m => m.type == PIICategory.phone) ≠ [] :=
  ⟨rfl, by decide⟩

/-- C6 (amended): if the phone matcher throws internally during a scan, the
failure is swallowed and detect still succeeds — the result is the same as
for a non-throwing matcher yielding the same spans; the phone category
contributes exactly the spans already yielded before the failure (zero when
it fails before yielding any); and the matches of all other categories are
unaffected (removing the phone items gives exactly the result of a scan with
no phone matches). -/
theorem c6_phone_failure_swallowed (pm : List Char → PhoneOutcome) (t : List Char) :
    detect_pii pm t = detect_pii (fun u => ⟨(pm u).yielded, false⟩) t ∧
    ((detect_pii pm t).filter (fun m => m.type == PIICategory.phone)).Perm
      (phoneItems t (pm t).yielded) ∧
    ((detect_pii pm t).filter (fun m => !(m.type == PIICategory.phone))
      = detect_pii phoneNone t) ∧
    ((pm t).yielded = [] →
      (detect_pii pm t).filter (fun m => m.type == PIICategory.phone) = []) := by
  have hphonefilter : ((detect_pii pm t).filter (fun m => m.type == PIICategory.phone)).Perm
      (phoneItems t (pm t).yielded) := by
    have h2 := (detect_pii_perm pm t).filter (fun m => m.type == PIICategory.phone)
    rw [pooled_filter_phone] at h2
    exact h2
  refine ⟨rfl, hphonefilter, ?_, ?_⟩
  · unfold detect_pii
    rw [filter_insertionSort, pooled_filter_nonphone]
    rfl
  · intro hnil
    rw [hnil] at hphonefilter
    exact hphonefilter.eq_nil

/-- Witness for C6: with the silent matcher the yielded list is empty and the
phone category indeed contributes nothing. -/
theorem c6_witness :
    ((phoneNone (("ok").data)).yielded = []) ∧
    (detect_pii phoneNone (("ok").data)).filter
      (fun m => m.type == PIICategory.phone) = [] :=
  ⟨rfl, (c6_phone_failure_swallowed phoneNone (("ok").data)).2.2.2 rfl⟩

/-- C3 (evaluation at the failing input): because the source's TLD class is
literally `[A-Z|a-z]`, which also matches the bar character, `detect` on
`"a@b.c|x"` returns an email match whose matched text is the whole of
`"a@b.c|x"` — its TLD part is not a run of at least two letters. -/
theorem c3_email_bar_tld :
    detect_pii phoneNone (("a@b.c|x").data)
      = [⟨PIICategory.email, ("a@b.c|x").data, 0, 7, Confidence.high⟩] ∧
    emailTldChar '|' = true :=
  ⟨by decide, rfl⟩
